import Mathlib

/-!
Shallow embedding of the 1-D transient heat-conduction engine
(`NumericalForward.py`, `heat_transfer_simulation_utilities.py`) over exact
rational arithmetic, together with proofs of the specified properties.

Machine floating point is modelled by `ℚ`; the sparse direct solve
(`scipy.sparse.linalg.spsolve`) is modelled by Cramer's rule, which agrees
with the unique solution of `A·x = b` whenever `A` is nonsingular.
-/

namespace HeatTransfer

open Matrix

/-- Material property bundle (`class Material` in `NumericalForward.py`):
mass density `rho`, specific heat capacity `cp`, heat conductivity `lmbd`. -/
structure Material where
  rho : ℚ
  cp : ℚ
  lmbd : ℚ
deriving DecidableEq

/-- Default material (`Steel = Material(7850, 520, 50)`). -/
def Steel : Material := ⟨7850, 520, 50⟩

/-- Tridiagonal matrix with subdiagonal `lo`, diagonal `d`, superdiagonal `hi`
on `(N+1) × (N+1)` nodes: the shape produced by
`diags([lo, d, hi], [-1, 0, 1], shape=(N+1, N+1))`. -/
def tridiag (N : ℕ) (lo d hi : ℚ) : Matrix (Fin (N + 1)) (Fin (N + 1)) ℚ :=
  Matrix.of fun i j =>
    if (i : ℕ) = (j : ℕ) + 1 then lo
    else if (i : ℕ) = (j : ℕ) then d
    else if (j : ℕ) = (i : ℕ) + 1 then hi
    else 0

/-- Pointwise single-entry overwrite, modelling an in-place sparse-matrix
entry assignment such as `self.K[0,0] /= 2` or `A[-1,-1] += ...`. -/
def setEntry {n : ℕ} (A : Matrix (Fin n) (Fin n) ℚ) (r c : Fin n) (v : ℚ) :
    Matrix (Fin n) (Fin n) ℚ :=
  Matrix.of fun a b => if a = r ∧ b = c then v else A a b

/-- Simulation state (`class Simulation` in `NumericalForward.py`).
`N` is the number of elements, so there are `N+1` nodes.
The Python `np.empty(N+1)` placeholder for `T` is uninitialised; its initial
contents are irrelevant to every property below (it is filled before use). -/
structure Simulation (N : ℕ) where
  L : ℚ
  Mat : Material
  T : Fin (N + 1) → ℚ
  T_record : List (Fin (N + 1) → ℚ)
  HeatFlux : ℚ → ℚ
  RobinAlpha : ℚ
  T_amb : ℚ → ℚ
  t : List ℚ
  dx : ℚ
  x : Fin (N + 1) → ℚ
  M : Matrix (Fin (N + 1)) (Fin (N + 1)) ℚ
  K : Matrix (Fin (N + 1)) (Fin (N + 1)) ℚ

/-- Constructor body of `Simulation.__init__` on the domain where it
completes (`N ≥ 1` and `Length ≠ 0`; with `N = 0` the Python code raises
`ZeroDivisionError` at `dx = Length/N` before assembly, and with `N ≥ 1`,
`Length = 0` it raises `ZeroDivisionError` at the `(1/self.dx)` stiffness
assembly — see `Simulation.init?`, which carries both error paths; on
`Length = 0` this total function instead uses ℚ's `1/0 = 0` and is not the
source's behaviour).  Matrix assembly:
`M = dx·rho·cp · diags([1/6, 4/6, 1/6])`,
`K = (1/dx)·lmbd · diags([-1, 2, -1])`, then
`K[0,0] /= 2` and `K[N,N] /= 2`. -/
def Simulation.init (N : ℕ) (Length : ℚ) (Mat : Material) (HeatFlux : ℚ → ℚ)
    (AmbientTemperature : ℚ → ℚ) (RobinAlpha : ℚ) : Simulation N :=
  let dx : ℚ := Length / (N : ℚ)
  let M0 := (dx * Mat.rho * Mat.cp) • tridiag N (1/6) (4/6) (1/6)
  let K0 := ((1/dx) * Mat.lmbd) • tridiag N (-1) 2 (-1)
  let K1 := setEntry K0 0 0 (K0 0 0 / 2)
  let K2 := setEntry K1 (Fin.last N) (Fin.last N) (K1 (Fin.last N) (Fin.last N) / 2)
  { L := Length
    Mat := Mat
    T := fun _ => 0
    T_record := []
    HeatFlux := HeatFlux
    RobinAlpha := RobinAlpha
    T_amb := AmbientTemperature
    t := []
    dx := dx
    x := fun i => (i : ℚ) * dx
    M := M0
    K := K2 }

/-- Unstructured Python runtime error that construction can actually raise. -/
inductive PyError where
  | zeroDivision : PyError
deriving DecidableEq

/-- Faithful constructor including its failure modes, both unstructured
`ZeroDivisionError`s: with `N = 0` the line `self.dx = Length/N` raises;
with `N ≥ 1` and `Length = 0`, `dx = 0` and the stiffness-assembly line
`(1/self.dx)*self.Mat.lmbd*...` raises.  No other input is checked: any
nonzero `Length` (even `< 0`) and any material values (even `≤ 0`) are
accepted and the matrices are assembled from them. -/
def Simulation.init? (N : ℕ) (Length : ℚ) (Mat : Material) (HeatFlux : ℚ → ℚ)
    (AmbientTemperature : ℚ → ℚ) (RobinAlpha : ℚ) :
    Except PyError (Simulation N) :=
  if N = 0 then .error .zeroDivision
  else if Length = 0 then .error .zeroDivision
  else .ok (Simulation.init N Length Mat HeatFlux AmbientTemperature RobinAlpha)

/-- Sim.t[-1]: the last recorded time (the code indexes an assumed-nonempty
list; the default is never reached in any run below). -/
def tLast {N : ℕ} (S : Simulation N) : ℚ := S.t.getLastD 0

/-- System matrix assembled by `EvaluateNewStep`:
`A = Sim.M + dt*theta*Sim.K`, then `A[-1,-1] += dt*theta*Sim.RobinAlpha`. -/
def stepA {N : ℕ} (S : Simulation N) (dt theta : ℚ) :
    Matrix (Fin (N + 1)) (Fin (N + 1)) ℚ :=
  let A := S.M + (dt * theta) • S.K
  setEntry A (Fin.last N) (Fin.last N)
    (A (Fin.last N) (Fin.last N) + dt * theta * S.RobinAlpha)

/-- Right-hand side assembled by `EvaluateNewStep`:
`b = (Sim.M - dt*(1-theta)*Sim.K).dot(Sim.T)`, then
`b[0] += dt*(1-theta)*HeatFlux(t[-1])`, `b[0] += dt*theta*HeatFlux(t[-1]+dt)`,
`b[-1] -= dt*(1-theta)*RobinAlpha*T[-1]`,
`b[-1] += dt*(1-theta)*RobinAlpha*T_amb(t[-1])`,
`b[-1] += dt*theta*RobinAlpha*T_amb(t[-1]+dt)`. -/
def stepb {N : ℕ} (S : Simulation N) (dt theta : ℚ) : Fin (N + 1) → ℚ :=
  let tprev := tLast S
  let b0 := (S.M - (dt * (1 - theta)) • S.K).mulVec S.T
  let b1 := Function.update b0 0
    (b0 0 + dt * (1 - theta) * S.HeatFlux tprev + dt * theta * S.HeatFlux (tprev + dt))
  Function.update b1 (Fin.last N)
    (b1 (Fin.last N) - dt * (1 - theta) * S.RobinAlpha * S.T (Fin.last N)
      + dt * (1 - theta) * S.RobinAlpha * S.T_amb tprev
      + dt * theta * S.RobinAlpha * S.T_amb (tprev + dt))

/-- One time-integrator step (`EvaluateNewStep(Sim, dt, theta)`): assembles
`A` and `b` and returns `spsolve(A, b)`.  The sparse solve is modelled by
Cramer's rule `det(A)⁻¹ • adjugate(A) ⬝ b`, which is the unique solution of
`A·x = b` whenever `det A ≠ 0`.  The Python function has no error path: on a
singular `A`, `spsolve` emits only a warning and returns a non-finite vector
(here the degenerate value obtained from `det(A)⁻¹ = 0⁻¹ = 0`). -/
def EvaluateNewStep {N : ℕ} (S : Simulation N) (dt theta : ℚ) : Fin (N + 1) → ℚ :=
  ((stepA S dt theta).det)⁻¹ • (stepA S dt theta).adjugate.mulVec (stepb S dt theta)

/-- Body of the `while` loop of `ForwardSimulation`:
`Sim.T = EvaluateNewStep(Sim, dt, theta)`; `Sim.T_record.append(Sim.T)`;
`Sim.t.append(Sim.t[-1] + dt)`. -/
def forwardStep {N : ℕ} (S : Simulation N) (theta dt : ℚ) : Simulation N :=
  let Tn := EvaluateNewStep S dt theta
  { S with
    T := Tn
    T_record := S.T_record ++ [Tn]
    t := S.t ++ [tLast S + dt] }

/-- The `while Sim.t[-1] < t_stop` loop of `ForwardSimulation`, with explicit
fuel (running out of fuel returns the state mid-run; any fuel of at least the
number of iterations that the Python loop performs gives the completed run). -/
def forwardLoop {N : ℕ} : ℕ → Simulation N → ℚ → ℚ → ℚ → Simulation N
  | 0, S, _, _, _ => S
  | fuel + 1, S, theta, dt, t_stop =>
    if tLast S < t_stop then forwardLoop fuel (forwardStep S theta dt) theta dt t_stop
    else S

/-- `ForwardSimulation(Sim, theta, T0, dt, t_start, t_stop)`:
`Sim.t.append(t_start)`; `Sim.T.fill(T0)`; `Sim.T_record.append(Sim.T)`;
then the main loop.  (`CallBack` only plots/prints; it never writes the
simulation state, so it is omitted.) -/
def ForwardSimulation {N : ℕ} (S : Simulation N) (theta T0 dt t_start t_stop : ℚ)
    (fuel : ℕ) : Simulation N :=
  let S0 := { S with
    T := fun _ => T0
    t := S.t ++ [t_start]
    T_record := S.T_record ++ [fun _ => T0] }
  forwardLoop fuel S0 theta dt t_stop

/-- State of `Callback` from `heat_transfer_simulation_utilities.py` that is
relevant to control flow: the report rate limiter (`call_at`, `last_call`)
and the run/pause/stop state string.  The plot canvases and the progress
emitter are external I/O collaborators and hold no engine state. -/
structure Callback where
  call_at : ℚ
  last_call : ℚ
  simulation_state : String
deriving DecidableEq

/-- Fresh callback (`simulation_state = "running"`, `last_call = 0`). -/
def Callback.mk0 (call_at : ℚ) : Callback :=
  { call_at := call_at, last_call := 0, simulation_state := "running" }

/-- `Callback.__call__(Sim, force_update)`: first the rate-limited report
(which only advances `last_call`), then a non-blocking poll of the control
queue (`if not queue.empty(): msg = queue.get_nowait()`) taking at most one
message from the front; `"stop"`/`"pause"`/`"continue"` set the state and any
other message is printed and ignored.  Returns the new callback state and the
remaining queue; the Python return value is the `simulation_state` field. -/
def Callback.call (cb : Callback) (current_t : ℚ) (queue : List String)
    (force_update : Bool) : Callback × List String :=
  let cb1 := if current_t > cb.last_call + cb.call_at ∨ force_update = true then
      { cb with last_call := cb.last_call + cb.call_at }
    else cb
  match queue with
  | [] => (cb1, [])
  | msg :: rest =>
    if msg = "stop" then ({ cb1 with simulation_state := "stopped" }, rest)
    else if msg = "pause" then ({ cb1 with simulation_state := "paused" }, rest)
    else if msg = "continue" then ({ cb1 with simulation_state := "running" }, rest)
    else (cb1, rest)

/-- Modelled from the spec: the simulation object driven by
`SimulationController` (its `evaluate_one_step`, `simulation_has_finished`
and `current_t` members live in `heat_transfer_simulation.py`, which is not
among the sources).  Per §4.3/§3 of the spec, `evaluate_one_step` calls the
time integrator and appends one entry to each history (realised here by
`forwardStep` on the engine state), and the run is finished once the current
time reaches the time horizon. -/
structure ControllerSim (N : ℕ) where
  sim : Simulation N
  theta : ℚ
  dt : ℚ
  t_stop : ℚ

/-- Modelled from the spec: current simulation time (`Sim.current_t`). -/
def ControllerSim.current_t {N : ℕ} (cs : ControllerSim N) : ℚ := tLast cs.sim

/-- Modelled from the spec: finished flag (`Sim.simulation_has_finished`). -/
def ControllerSim.simulation_has_finished {N : ℕ} (cs : ControllerSim N) : Bool :=
  decide (cs.t_stop ≤ ControllerSim.current_t cs)

/-- Modelled from the spec: one committed step (`Sim.evaluate_one_step()`). -/
def ControllerSim.evaluate_one_step {N : ℕ} (cs : ControllerSim N) : ControllerSim N :=
  { cs with sim := forwardStep cs.sim cs.theta cs.dt }

/-- The `while not self.Sim.simulation_has_finished` loop of
`SimulationController.complete_simulation`, with explicit fuel: each
iteration calls the callback (consuming at most one control message), then
steps if `"running"`, idles if `"paused"` (the `time.sleep(0.1)` is pure
real-time delay), and breaks out if `"stopped"`. -/
def controllerLoop {N : ℕ} :
    ℕ → Callback → List String → ControllerSim N →
    Callback × List String × ControllerSim N
  | 0, cb, queue, cs => (cb, queue, cs)
  | fuel + 1, cb, queue, cs =>
    if cs.simulation_has_finished then (cb, queue, cs)
    else
      let r := Callback.call cb cs.current_t queue false
      if r.1.simulation_state = "running" then
        controllerLoop fuel r.1 r.2 cs.evaluate_one_step
      else if r.1.simulation_state = "paused" then
        controllerLoop fuel r.1 r.2 cs
      else if r.1.simulation_state = "stopped" then (r.1, r.2, cs)
      else controllerLoop fuel r.1 r.2 cs

/-- `SimulationController.complete_simulation`: run the loop, then call the
callback once more with `force_update=True`.  (The final error-norm
computation and CSV export read but never write the history.) -/
def completeSimulation {N : ℕ} (fuel : ℕ) (cb : Callback) (queue : List String)
    (cs : ControllerSim N) : Callback × List String × ControllerSim N :=
  let r := controllerLoop fuel cb queue cs
  let rf := Callback.call r.1 r.2.2.current_t r.2.1 true
  (rf.1, rf.2, r.2.2)

/-! ## Entry and row-sum lemmas for the assembled matrices -/

lemma setEntry_apply {n : ℕ} (A : Matrix (Fin n) (Fin n) ℚ) (r c : Fin n) (v : ℚ)
    (a b : Fin n) :
    setEntry A r c v a b = if a = r ∧ b = c then v else A a b := rfl

lemma tridiag_apply_eq_add {N : ℕ} (lo d hi : ℚ) (i j : Fin (N + 1)) :
    tridiag N lo d hi i j =
      (if (i : ℕ) = (j : ℕ) + 1 then lo else 0)
      + (if (j : ℕ) = (i : ℕ) then d else 0)
      + (if (j : ℕ) = (i : ℕ) + 1 then hi else 0) := by
  unfold tridiag
  simp only [Matrix.of_apply]
  split_ifs <;> first | omega | ring1

lemma sum_ite_coe_eq {N : ℕ} (m : ℕ) (v : ℚ) :
    (∑ j : Fin (N + 1), if (j : ℕ) = m then v else 0) = if m ≤ N then v else 0 := by
  by_cases h : m ≤ N
  · rw [if_pos h, Finset.sum_eq_single (⟨m, Nat.lt_succ_of_le h⟩ : Fin (N + 1))]
    · simp
    · intro j _ hj
      rw [if_neg]
      intro hc
      exact hj (Fin.ext hc)
    · intro hm
      exact absurd (Finset.mem_univ _) hm
  · rw [if_neg h]
    apply Finset.sum_eq_zero
    intro j _
    rw [if_neg]
    intro hc
    exact h (hc ▸ Nat.lt_succ_iff.mp j.isLt)

lemma sum_ite_coe_succ_eq {N : ℕ} (m : ℕ) (v : ℚ) :
    (∑ j : Fin (N + 1), if m = (j : ℕ) + 1 then v else 0)
      = if 1 ≤ m ∧ m ≤ N + 1 then v else 0 := by
  cases m with
  | zero => simp
  | succ m' =>
    have h1 : ∀ j : Fin (N + 1), (if m' + 1 = (j : ℕ) + 1 then v else 0)
        = (if (j : ℕ) = m' then v else 0) := by
      intro j
      split_ifs <;> first | omega | ring1
    rw [Finset.sum_congr rfl fun j _ => h1 j, sum_ite_coe_eq]
    split_ifs <;> first | omega | ring1

lemma tridiag_row_sum {N : ℕ} (lo d hi : ℚ) (i : Fin (N + 1)) :
    (∑ j, tridiag N lo d hi i j)
      = (if 1 ≤ (i : ℕ) then lo else 0) + d + (if (i : ℕ) < N then hi else 0) := by
  have hiN : (i : ℕ) ≤ N := Nat.lt_succ_iff.mp i.isLt
  calc ∑ j, tridiag N lo d hi i j
      = (∑ j : Fin (N + 1), if (i : ℕ) = (j : ℕ) + 1 then lo else 0)
        + (∑ j : Fin (N + 1), if (j : ℕ) = (i : ℕ) then d else 0)
        + (∑ j : Fin (N + 1), if (j : ℕ) = (i : ℕ) + 1 then hi else 0) := by
        rw [← Finset.sum_add_distrib, ← Finset.sum_add_distrib]
        exact Finset.sum_congr rfl fun j _ => tridiag_apply_eq_add lo d hi i j
    _ = (if 1 ≤ (i : ℕ) ∧ (i : ℕ) ≤ N + 1 then lo else 0)
        + (if (i : ℕ) ≤ N then d else 0)
        + (if (i : ℕ) + 1 ≤ N then hi else 0) := by
        rw [sum_ite_coe_succ_eq, sum_ite_coe_eq, sum_ite_coe_eq]
    _ = (if 1 ≤ (i : ℕ) then lo else 0) + d + (if (i : ℕ) < N then hi else 0) := by
        split_ifs <;> first | omega | ring1

lemma setEntry_row_sum {n : ℕ} (A : Matrix (Fin n) (Fin n) ℚ) (r c : Fin n) (v : ℚ)
    (i : Fin n) :
    (∑ j, setEntry A r c v i j)
      = if i = r then (∑ j, A i j) + (v - A r c) else ∑ j, A i j := by
  by_cases h : i = r
  · subst h
    rw [if_pos rfl]
    have h1 : ∀ j, setEntry A i c v i j = A i j + (if j = c then v - A i c else 0) := by
      intro j
      rw [setEntry_apply]
      by_cases hc : j = c
      · subst hc
        rw [if_pos ⟨rfl, rfl⟩, if_pos rfl]
        ring
      · rw [if_neg (fun hx => hc hx.2), if_neg hc]
        ring
    rw [Finset.sum_congr rfl fun j _ => h1 j, Finset.sum_add_distrib,
      Finset.sum_ite_eq' Finset.univ c fun _ => v - A i c,
      if_pos (Finset.mem_univ c)]
  · rw [if_neg h]
    apply Finset.sum_congr rfl
    intro j _
    rw [setEntry_apply, if_neg]
    intro hc
    exact h hc.1

lemma Fin.last_ne_zero_of_pos {N : ℕ} (hN : 1 ≤ N) : (Fin.last N : Fin (N + 1)) ≠ 0 := by
  intro h
  have := congrArg Fin.val h
  simp only [Fin.val_last, Fin.val_zero] at this
  omega

/-- Every row of the assembled (boundary-halved) stiffness matrix sums to
zero: the discrete conduction operator annihilates constant fields. -/
lemma init_K_row_sum {N : ℕ} (hN : 1 ≤ N) (L : ℚ) (Mat : Material)
    (hf ta : ℚ → ℚ) (α : ℚ) (i : Fin (N + 1)) :
    (∑ j, (Simulation.init N L Mat hf ta α).K i j) = 0 := by
  have hlast : (Fin.last N : Fin (N + 1)) ≠ 0 := Fin.last_ne_zero_of_pos hN
  set s : ℚ := (1 / (L / (N : ℚ))) * Mat.lmbd with hs
  have hK : (Simulation.init N L Mat hf ta α).K
      = setEntry (setEntry (s • tridiag N (-1) 2 (-1)) 0 0
          ((s • tridiag N (-1) 2 (-1)) 0 0 / 2))
        (Fin.last N) (Fin.last N)
        ((setEntry (s • tridiag N (-1) 2 (-1)) 0 0
          ((s • tridiag N (-1) 2 (-1)) 0 0 / 2)) (Fin.last N) (Fin.last N) / 2) := rfl
  have hK0_row : ∀ i : Fin (N + 1), (∑ j, (s • tridiag N (-1) 2 (-1)) i j)
      = s * ((if 1 ≤ (i : ℕ) then (-1 : ℚ) else 0) + 2
        + (if (i : ℕ) < N then (-1 : ℚ) else 0)) := by
    intro i
    calc (∑ j, (s • tridiag N (-1) 2 (-1)) i j)
        = ∑ j, s * tridiag N (-1) 2 (-1) i j := by
          exact Finset.sum_congr rfl fun j _ => rfl
      _ = s * ∑ j, tridiag N (-1) 2 (-1) i j := by rw [Finset.mul_sum]
      _ = _ := by rw [tridiag_row_sum]
  have hd00 : (s • tridiag N (-1) 2 (-1)) 0 0 = s * 2 := by
    show s * tridiag N (-1) 2 (-1) 0 0 = s * 2
    rw [tridiag_apply_eq_add]
    norm_num
  have hdll : (setEntry (s • tridiag N (-1) 2 (-1)) 0 0
      ((s • tridiag N (-1) 2 (-1)) 0 0 / 2)) (Fin.last N) (Fin.last N) = s * 2 := by
    rw [setEntry_apply, if_neg]
    · show s * tridiag N (-1) 2 (-1) (Fin.last N) (Fin.last N) = s * 2
      rw [tridiag_apply_eq_add]
      norm_num
    · intro hc
      exact hlast hc.1
  rw [hK, setEntry_row_sum]
  by_cases hil : i = Fin.last N
  · subst hil
    rw [if_pos rfl, hdll, setEntry_row_sum, if_neg hlast, hK0_row]
    have h1 : 1 ≤ ((Fin.last N : Fin (N + 1)) : ℕ) := by
      rw [Fin.val_last]; omega
    have h2 : ¬ ((Fin.last N : Fin (N + 1)) : ℕ) < N := by
      rw [Fin.val_last]; omega
    rw [if_pos h1, if_neg h2]
    ring
  · rw [if_neg hil, setEntry_row_sum]
    by_cases hi0 : i = 0
    · subst hi0
      rw [if_pos rfl, hd00, hK0_row]
      have h1 : ¬ 1 ≤ ((0 : Fin (N + 1)) : ℕ) := by simp
      have h2 : ((0 : Fin (N + 1)) : ℕ) < N := by simpa using hN
      rw [if_neg h1, if_pos h2]
      ring
    · rw [if_neg hi0, hK0_row]
      have h1 : 1 ≤ (i : ℕ) := by
        rcases Nat.eq_zero_or_pos (i : ℕ) with h | h
        · exact absurd (Fin.ext h) hi0
        · exact h
      have h2 : (i : ℕ) < N := by
        have := Nat.lt_succ_iff.mp i.isLt
        rcases Nat.lt_or_ge (i : ℕ) N with h | h
        · exact h
        · exact absurd (Fin.ext (by rw [Fin.val_last]; omega)) hil
      rw [if_pos h1, if_pos h2]
      ring

/-- The assembled stiffness matrix annihilates constant vectors. -/
lemma init_K_mulVec_const {N : ℕ} (hN : 1 ≤ N) (L : ℚ) (Mat : Material)
    (hf ta : ℚ → ℚ) (α : ℚ) (c : ℚ) :
    (Simulation.init N L Mat hf ta α).K.mulVec (fun _ => c) = 0 := by
  funext i
  show ∑ j, (Simulation.init N L Mat hf ta α).K i j * c = 0
  rw [← Finset.sum_mul, init_K_row_sum hN, zero_mul]

/-! ## Closed forms of the per-step system and the modelled solve -/

lemma stepA_apply {N : ℕ} (S : Simulation N) (dt theta : ℚ) (i j : Fin (N + 1)) :
    stepA S dt theta i j
      = (S.M i j + dt * theta * S.K i j)
        + (if i = Fin.last N ∧ j = Fin.last N then dt * theta * S.RobinAlpha else 0) := by
  have hs : stepA S dt theta
      = setEntry (S.M + (dt * theta) • S.K) (Fin.last N) (Fin.last N)
          ((S.M + (dt * theta) • S.K) (Fin.last N) (Fin.last N)
            + dt * theta * S.RobinAlpha) := rfl
  rw [hs, setEntry_apply]
  by_cases h : i = Fin.last N ∧ j = Fin.last N
  · obtain ⟨h1, h2⟩ := h
    subst h1
    subst h2
    rw [if_pos ⟨rfl, rfl⟩, if_pos ⟨rfl, rfl⟩]
    simp only [Matrix.add_apply, Matrix.smul_apply, smul_eq_mul]
  · rw [if_neg h, if_neg h]
    simp only [Matrix.add_apply, Matrix.smul_apply, smul_eq_mul]
    ring

lemma stepb_apply {N : ℕ} (S : Simulation N) (dt theta : ℚ) (i : Fin (N + 1)) :
    stepb S dt theta i
      = ((S.M - (dt * (1 - theta)) • S.K).mulVec S.T) i
        + (if i = 0 then dt * (1 - theta) * S.HeatFlux (tLast S)
            + dt * theta * S.HeatFlux (tLast S + dt) else 0)
        + (if i = Fin.last N then
            - (dt * (1 - theta) * S.RobinAlpha * S.T (Fin.last N))
            + dt * (1 - theta) * S.RobinAlpha * S.T_amb (tLast S)
            + dt * theta * S.RobinAlpha * S.T_amb (tLast S + dt) else 0) := by
  have hs : stepb S dt theta
      = Function.update
          (Function.update ((S.M - (dt * (1 - theta)) • S.K).mulVec S.T) 0
            (((S.M - (dt * (1 - theta)) • S.K).mulVec S.T) 0
              + dt * (1 - theta) * S.HeatFlux (tLast S)
              + dt * theta * S.HeatFlux (tLast S + dt)))
          (Fin.last N)
          ((Function.update ((S.M - (dt * (1 - theta)) • S.K).mulVec S.T) 0
            (((S.M - (dt * (1 - theta)) • S.K).mulVec S.T) 0
              + dt * (1 - theta) * S.HeatFlux (tLast S)
              + dt * theta * S.HeatFlux (tLast S + dt))) (Fin.last N)
            - dt * (1 - theta) * S.RobinAlpha * S.T (Fin.last N)
            + dt * (1 - theta) * S.RobinAlpha * S.T_amb (tLast S)
            + dt * theta * S.RobinAlpha * S.T_amb (tLast S + dt)) := rfl
  rw [hs]
  by_cases hl : i = Fin.last N
  · subst hl
    rw [Function.update_same]
    by_cases h0 : (Fin.last N : Fin (N + 1)) = 0
    · rw [if_pos h0, h0, Function.update_same, if_pos rfl]
      ring
    · rw [if_neg h0, Function.update_noteq h0, if_pos rfl]
      ring
  · rw [Function.update_noteq hl, if_neg hl]
    by_cases h0 : i = 0
    · rw [if_pos h0, h0, Function.update_same]
      ring
    · rw [if_neg h0, Function.update_noteq h0]
      ring

/-- When the assembled matrix is nonsingular, the returned vector solves the
linear system (what `spsolve(A, b)` computes). -/
lemma evaluateNewStep_solves {N : ℕ} (S : Simulation N) (dt theta : ℚ)
    (hdet : (stepA S dt theta).det ≠ 0) :
    (stepA S dt theta).mulVec (EvaluateNewStep S dt theta) = stepb S dt theta := by
  unfold EvaluateNewStep
  rw [Matrix.mulVec_smul, Matrix.mulVec_mulVec, Matrix.mul_adjugate,
    Matrix.smul_mulVec_assoc, Matrix.one_mulVec, smul_smul,
    inv_mul_cancel₀ hdet, one_smul]

/-- When the assembled matrix is nonsingular, any solution of the system is
the returned vector: the solve is exact and unique. -/
lemma evaluateNewStep_unique {N : ℕ} (S : Simulation N) (dt theta : ℚ)
    (hdet : (stepA S dt theta).det ≠ 0) (x : Fin (N + 1) → ℚ)
    (hx : (stepA S dt theta).mulVec x = stepb S dt theta) :
    EvaluateNewStep S dt theta = x := by
  unfold EvaluateNewStep
  rw [← hx, Matrix.mulVec_mulVec, Matrix.adjugate_mul, Matrix.smul_mulVec_assoc,
    Matrix.one_mulVec, smul_smul, inv_mul_cancel₀ hdet, one_smul]

/-! ## Claim C1 -/

/-- C1: for every simulation state with previous temperature vector `T`,
previous time `t[-1]`, step `dt > 0` and `theta ∈ [0,1]`, one integrator step
assembles `A = M + dt·theta·K` with `dt·theta·RobinAlpha` added at
`A[last,last]`, assembles `b = (M − dt·(1−theta)·K)·T_prev` with the two
theta-weighted heat-flux terms added at `b[0]` and the Robin terms
(`−dt·(1−theta)·RobinAlpha·T_prev[last]` plus the two theta-weighted
`RobinAlpha·AmbientTemperature` terms) added at `b[last]`, and returns the
unique solution of `A·T_next = b` (unique whenever `A` is nonsingular, the
precondition for the sparse solve to return the solution). -/
theorem C1_step_assembles_theta_system (N : ℕ) (S : Simulation N) (dt theta : ℚ)
    (hdt : 0 < dt) (hth0 : 0 ≤ theta) (hth1 : theta ≤ 1)
    (hdet : (stepA S dt theta).det ≠ 0) :
    (∀ i j, stepA S dt theta i j
      = (S.M i j + dt * theta * S.K i j)
        + (if i = Fin.last N ∧ j = Fin.last N then dt * theta * S.RobinAlpha else 0))
    ∧ (∀ i, stepb S dt theta i
      = ((S.M - (dt * (1 - theta)) • S.K).mulVec S.T) i
        + (if i = 0 then dt * (1 - theta) * S.HeatFlux (tLast S)
            + dt * theta * S.HeatFlux (tLast S + dt) else 0)
        + (if i = Fin.last N then
            - (dt * (1 - theta) * S.RobinAlpha * S.T (Fin.last N))
            + dt * (1 - theta) * S.RobinAlpha * S.T_amb (tLast S)
            + dt * theta * S.RobinAlpha * S.T_amb (tLast S + dt) else 0))
    ∧ (stepA S dt theta).mulVec (EvaluateNewStep S dt theta) = stepb S dt theta
    ∧ (∀ x, (stepA S dt theta).mulVec x = stepb S dt theta
        → x = EvaluateNewStep S dt theta) := by
  refine ⟨stepA_apply S dt theta, stepb_apply S dt theta,
    evaluateNewStep_solves S dt theta hdet, fun x hx => ?_⟩
  exact (evaluateNewStep_unique S dt theta hdet x hx).symm

/-- Concrete two-node simulation state used to instantiate theorems with
hypotheses: identity mass matrix, zero stiffness, zero boundary data. -/
def demoState : Simulation 1 :=
  { L := 1
    Mat := Steel
    T := fun _ => 0
    T_record := []
    HeatFlux := fun _ => 0
    RobinAlpha := 0
    T_amb := fun _ => 0
    t := [0]
    dx := 1
    x := fun i => (i : ℚ)
    M := 1
    K := 0 }

lemma demoState_stepA_det : (stepA demoState 1 (1/2)).det ≠ 0 := by
  rw [Matrix.det_fin_two]
  have h00 : stepA demoState 1 (1/2) 0 0 = 1 := by
    rw [stepA_apply]
    norm_num [demoState, Matrix.one_apply, Fin.ext_iff]
  have h01 : stepA demoState 1 (1/2) 0 1 = 0 := by
    rw [stepA_apply]
    norm_num [demoState, Matrix.one_apply, Fin.ext_iff]
  have h10 : stepA demoState 1 (1/2) 1 0 = 0 := by
    rw [stepA_apply]
    norm_num [demoState, Matrix.one_apply, Fin.ext_iff]
  have h11 : stepA demoState 1 (1/2) 1 1 = 1 := by
    rw [stepA_apply]
    norm_num [demoState, Matrix.one_apply, Fin.ext_iff]
  rw [h00, h01, h10, h11]
  norm_num

/-- Witness instantiating C1 at a concrete state with `dt = 1`,
`theta = 1/2`, nonsingular system matrix. -/
theorem C1_step_assembles_theta_system_witness :
    (0 : ℚ) < 1 ∧ (0 : ℚ) ≤ 1/2 ∧ (1/2 : ℚ) ≤ 1
    ∧ (stepA demoState 1 (1/2)).det ≠ 0
    ∧ (stepA demoState 1 (1/2)).mulVec (EvaluateNewStep demoState 1 (1/2))
        = stepb demoState 1 (1/2) :=
  ⟨by norm_num, by norm_num, by norm_num, demoState_stepA_det,
    (C1_step_assembles_theta_system 1 demoState 1 (1/2) (by norm_num) (by norm_num)
      (by norm_num) demoState_stepA_det).2.2.1⟩

/-! ## Claim C3 -/

/-- C3: after construction on a valid mesh (`N ≥ 1`, `L > 0`) with positive
material properties, the two boundary diagonal entries of `K` equal exactly
half of the unmodified stiffness diagonal value `2·lmbd/dx`, interior
diagonal entries equal `2·lmbd/dx`, and the tridiagonal off-diagonal
(adjacent-node) entries equal `−lmbd/dx`. -/
theorem C3_boundary_half_weighting (N : ℕ) (L : ℚ) (Mat : Material)
    (hf ta : ℚ → ℚ) (α : ℚ) (hN : 1 ≤ N) (hL : 0 < L)
    (hrho : 0 < Mat.rho) (hcp : 0 < Mat.cp) (hlmbd : 0 < Mat.lmbd) :
    (Simulation.init N L Mat hf ta α).K 0 0
      = (2 * Mat.lmbd / (Simulation.init N L Mat hf ta α).dx) / 2
    ∧ (Simulation.init N L Mat hf ta α).K (Fin.last N) (Fin.last N)
      = (2 * Mat.lmbd / (Simulation.init N L Mat hf ta α).dx) / 2
    ∧ (∀ i : Fin (N + 1), 0 < (i : ℕ) → (i : ℕ) < N →
        (Simulation.init N L Mat hf ta α).K i i
          = 2 * Mat.lmbd / (Simulation.init N L Mat hf ta α).dx)
    ∧ (∀ i j : Fin (N + 1), ((i : ℕ) = (j : ℕ) + 1 ∨ (j : ℕ) = (i : ℕ) + 1) →
        (Simulation.init N L Mat hf ta α).K i j
          = -(Mat.lmbd / (Simulation.init N L Mat hf ta α).dx)) := by
  have hlast : (Fin.last N : Fin (N + 1)) ≠ 0 := Fin.last_ne_zero_of_pos hN
  set s : ℚ := (1 / (L / (N : ℚ))) * Mat.lmbd with hs
  have hdx : (Simulation.init N L Mat hf ta α).dx = L / (N : ℚ) := rfl
  have hK : ∀ i j, (Simulation.init N L Mat hf ta α).K i j
      = setEntry (setEntry (s • tridiag N (-1) 2 (-1)) 0 0
          ((s • tridiag N (-1) 2 (-1)) 0 0 / 2))
        (Fin.last N) (Fin.last N)
        ((setEntry (s • tridiag N (-1) 2 (-1)) 0 0
          ((s • tridiag N (-1) 2 (-1)) 0 0 / 2)) (Fin.last N) (Fin.last N) / 2) i j :=
    fun i j => rfl
  have htri : ∀ i j : Fin (N + 1), (s • tridiag N (-1) 2 (-1)) i j
      = s * ((if (i : ℕ) = (j : ℕ) + 1 then (-1 : ℚ) else 0)
        + (if (j : ℕ) = (i : ℕ) then (2 : ℚ) else 0)
        + (if (j : ℕ) = (i : ℕ) + 1 then (-1 : ℚ) else 0)) := by
    intro i j
    show s * tridiag N (-1) 2 (-1) i j = _
    rw [tridiag_apply_eq_add]
  have hL0 : L ≠ 0 := ne_of_gt hL
  have hN0 : (N : ℚ) ≠ 0 := Nat.cast_ne_zero.mpr (by omega)
  refine ⟨?_, ?_, ?_, ?_⟩
  · rw [hK, setEntry_apply, if_neg (fun hx => hlast hx.1.symm), setEntry_apply,
      if_pos ⟨rfl, rfl⟩, htri, hdx, hs]
    simp only [Fin.val_zero, Fin.val_last]
    norm_num
    field_simp
    ring
  · rw [hK, setEntry_apply, if_pos ⟨rfl, rfl⟩, setEntry_apply,
      if_neg (fun hx => hlast hx.1), htri, hdx, hs]
    simp only [Fin.val_zero, Fin.val_last]
    norm_num
    field_simp
    ring
  · intro i h0 hN'
    have hi0 : i ≠ 0 := by
      intro h
      rw [h] at h0
      simp at h0
    have hil : i ≠ Fin.last N := by
      intro h
      rw [h, Fin.val_last] at hN'
      omega
    rw [hK, setEntry_apply, if_neg (fun hx => hil hx.1), setEntry_apply,
      if_neg (fun hx => hi0 hx.1), htri, hdx, hs]
    rw [if_pos (rfl : (i : ℕ) = (i : ℕ)),
      if_neg (by omega : ¬ ((i : ℕ) = (i : ℕ) + 1))]
    ring
  · intro i j hadj
    have hij : i ≠ j := by
      intro h
      rw [h] at hadj
      omega
    have h1 : ¬ (i = Fin.last N ∧ j = Fin.last N) := by
      intro hx
      exact hij (hx.1.trans hx.2.symm)
    have h2 : ¬ (i = 0 ∧ j = 0) := by
      intro hx
      exact hij (hx.1.trans hx.2.symm)
    rcases hadj with h | h
    · rw [hK, setEntry_apply, if_neg h1, setEntry_apply, if_neg h2, htri, hdx, hs]
      rw [if_pos h, if_neg (by omega), if_neg (by omega)]
      ring
    · rw [hK, setEntry_apply, if_neg h1, setEntry_apply, if_neg h2, htri, hdx, hs]
      rw [if_neg (by omega), if_neg (by omega), if_pos h]
      ring

/-- Witness instantiating C3 at `N = 2`, `L = 1`, Steel: `dx = 1/2`, so the
halved boundary diagonal entry is `50/(1/2) = 100`. -/
theorem C3_boundary_half_weighting_witness :
    (1 ≤ 2 ∧ (0 : ℚ) < 1 ∧ (0 : ℚ) < 7850 ∧ (0 : ℚ) < 520 ∧ (0 : ℚ) < 50)
    ∧ (Simulation.init 2 1 Steel (fun _ => 0) (fun _ => 0) 10).K 0 0 = 100 := by
  refine ⟨by norm_num, ?_⟩
  have h := (C3_boundary_half_weighting 2 1 Steel (fun _ => 0) (fun _ => 0) 10
    (by norm_num) (by norm_num) (by norm_num [Steel]) (by norm_num [Steel])
    (by norm_num [Steel])).1
  rw [h]
  have hdx : (Simulation.init 2 1 Steel (fun _ => 0) (fun _ => 0) 10).dx
      = 1 / ((2 : ℕ) : ℚ) := rfl
  rw [hdx]
  norm_num [Steel]

/-! ## Claim C2: uniform steady state -/

lemma setEntry_zero_mulVec {n : ℕ} (r c : Fin n) (v : ℚ) (u : Fin n → ℚ) :
    (setEntry 0 r c v).mulVec u = fun i => if i = r then v * u c else 0 := by
  funext i
  show ∑ j, setEntry 0 r c v i j * u j = _
  by_cases h : i = r
  · subst h
    rw [if_pos rfl, Finset.sum_eq_single c]
    · rw [setEntry_apply, if_pos ⟨rfl, rfl⟩]
    · intro j _ hj
      rw [setEntry_apply, if_neg (fun hx => hj hx.2), Matrix.zero_apply, zero_mul]
    · intro hc
      exact absurd (Finset.mem_univ c) hc
  · rw [if_neg h]
    apply Finset.sum_eq_zero
    intro j _
    rw [setEntry_apply, if_neg (fun hx => h hx.1), Matrix.zero_apply, zero_mul]

lemma stepA_eq_add {N : ℕ} (S : Simulation N) (dt theta : ℚ) :
    stepA S dt theta
      = S.M + (dt * theta) • S.K
        + setEntry 0 (Fin.last N) (Fin.last N) (dt * theta * S.RobinAlpha) := by
  ext i j
  rw [stepA_apply]
  simp only [Matrix.add_apply, Matrix.smul_apply, smul_eq_mul, setEntry_apply,
    Matrix.zero_apply]

lemma stepA_mulVec_eq {N : ℕ} (S : Simulation N) (dt theta : ℚ) (u : Fin (N + 1) → ℚ) :
    (stepA S dt theta).mulVec u
      = S.M.mulVec u + (dt * theta) • S.K.mulVec u
        + fun i => if i = Fin.last N then dt * theta * S.RobinAlpha * u (Fin.last N)
            else 0 := by
  rw [stepA_eq_add, Matrix.add_mulVec, Matrix.add_mulVec, Matrix.smul_mulVec_assoc,
    setEntry_zero_mulVec]

/-- State of the engine at the start of a forward run with uniform initial
temperature `T0`, zero boundary heat flux, and ambient temperature constantly
`T0` (the scenario of the conservation/steady-state property): the freshly
constructed simulation after `Sim.t.append(t_start)` and `Sim.T.fill(T0)`. -/
def uniformState (N : ℕ) (L : ℚ) (Mat : Material) (α T0 t0 : ℚ) : Simulation N :=
  { Simulation.init N L Mat (fun _ => 0) (fun _ => T0) α with
    T := fun _ => T0
    t := [t0] }

/-- The uniform vector is an exact solution of the stepped system for any
state in the steady-state scenario (zero flux, ambient `T0`, uniform
temperature `T0`, constructor matrices). -/
lemma uniform_system_fixed {N : ℕ} (S : Simulation N) (L : ℚ) (Mat : Material)
    (α T0 dt theta : ℚ) (hN : 1 ≤ N)
    (hK : S.K = (Simulation.init N L Mat (fun _ => 0) (fun _ => T0) α).K)
    (hT : S.T = fun _ => T0)
    (hHF : S.HeatFlux = fun _ => 0)
    (hTa : S.T_amb = fun _ => T0) :
    (stepA S dt theta).mulVec (fun _ => T0) = stepb S dt theta := by
  have hKc : S.K.mulVec (fun _ => T0) = 0 := by
    rw [hK]
    exact init_K_mulVec_const hN L Mat (fun _ => 0) (fun _ => T0) α T0
  rw [stepA_mulVec_eq, hKc, smul_zero, add_zero]
  funext i
  rw [stepb_apply, hT, hHF, hTa, Matrix.sub_mulVec, Matrix.smul_mulVec_assoc, hKc,
    smul_zero, sub_zero]
  by_cases hil : i = Fin.last N
  · subst hil
    simp only [Pi.add_apply, mul_zero, add_zero, zero_add, ite_self,
      eq_self_iff_true, if_true]
    ring
  · simp only [Pi.add_apply, if_neg hil, mul_zero, add_zero, zero_add, ite_self]

/-! ## Nonsingularity of the stepped system for nonnegative Robin coefficient -/

lemma init_M_apply {N : ℕ} (L : ℚ) (Mat : Material) (hf ta : ℚ → ℚ) (α : ℚ)
    (i j : Fin (N + 1)) :
    (Simulation.init N L Mat hf ta α).M i j
      = (L / (N : ℚ) * Mat.rho * Mat.cp) * tridiag N (1/6) (4/6) (1/6) i j := rfl

lemma init_K_apply {N : ℕ} (L : ℚ) (Mat : Material) (hf ta : ℚ → ℚ) (α : ℚ)
    (hN : 1 ≤ N) (i j : Fin (N + 1)) :
    (Simulation.init N L Mat hf ta α).K i j
      = (1 / (L / (N : ℚ)) * Mat.lmbd)
        * (if (i : ℕ) = (j : ℕ) + 1 then -1
           else if (i : ℕ) = (j : ℕ) then
             (if (i : ℕ) = 0 ∨ (i : ℕ) = N then 1 else 2)
           else if (j : ℕ) = (i : ℕ) + 1 then -1 else 0) := by
  have hlast : (Fin.last N : Fin (N + 1)) ≠ 0 := Fin.last_ne_zero_of_pos hN
  set s : ℚ := 1 / (L / (N : ℚ)) * Mat.lmbd with hs
  have hK : (Simulation.init N L Mat hf ta α).K i j
      = setEntry (setEntry (s • tridiag N (-1) 2 (-1)) 0 0
          ((s • tridiag N (-1) 2 (-1)) 0 0 / 2))
        (Fin.last N) (Fin.last N)
        ((setEntry (s • tridiag N (-1) 2 (-1)) 0 0
          ((s • tridiag N (-1) 2 (-1)) 0 0 / 2)) (Fin.last N) (Fin.last N) / 2) i j := rfl
  have htri : ∀ a b : Fin (N + 1), (s • tridiag N (-1) 2 (-1)) a b
      = s * ((if (a : ℕ) = (b : ℕ) + 1 then (-1 : ℚ) else 0)
        + (if (b : ℕ) = (a : ℕ) then (2 : ℚ) else 0)
        + (if (b : ℕ) = (a : ℕ) + 1 then (-1 : ℚ) else 0)) := by
    intro a b
    show s * tridiag N (-1) 2 (-1) a b = _
    rw [tridiag_apply_eq_add]
  by_cases hll : i = Fin.last N ∧ j = Fin.last N
  · obtain ⟨h1, h2⟩ := hll
    subst h1
    subst h2
    rw [hK, setEntry_apply, if_pos ⟨rfl, rfl⟩, setEntry_apply,
      if_neg (fun hx => hlast hx.1), htri]
    have hv0 : ((0 : Fin (N + 1)) : ℕ) = 0 := rfl
    have hvl : ((Fin.last N : Fin (N + 1)) : ℕ) = N := rfl
    split_ifs <;> first | ring1 | omega | (exfalso; omega) | simp_all
  · by_cases h00 : i = 0 ∧ j = 0
    · obtain ⟨h1, h2⟩ := h00
      subst h1
      subst h2
      rw [hK, setEntry_apply, if_neg hll, setEntry_apply, if_pos ⟨rfl, rfl⟩, htri]
      have hv0 : ((0 : Fin (N + 1)) : ℕ) = 0 := rfl
      have hvl : ((Fin.last N : Fin (N + 1)) : ℕ) = N := rfl
      split_ifs <;> first | ring1 | omega | (exfalso; omega) | simp_all
    · rw [hK, setEntry_apply, if_neg hll, setEntry_apply, if_neg h00, htri]
      have hij : ¬ ((i : ℕ) = 0 ∧ (j : ℕ) = 0) := by
        intro hx
        exact h00 ⟨Fin.ext hx.1, Fin.ext hx.2⟩
      have hij2 : ¬ ((i : ℕ) = N ∧ (j : ℕ) = N) := by
        intro hx
        refine hll ⟨Fin.ext ?_, Fin.ext ?_⟩
        · rw [Fin.val_last]
          exact hx.1
        · rw [Fin.val_last]
          exact hx.2
      have hv0 : ((0 : Fin (N + 1)) : ℕ) = 0 := rfl
      have hvl : ((Fin.last N : Fin (N + 1)) : ℕ) = N := rfl
      split_ifs <;> first | ring1 | omega | (exfalso; omega) | simp_all

/-- Strict row diagonal dominance of the stepped system: with a valid mesh,
positive material properties, `dt > 0`, `theta ≥ 0` and `RobinAlpha ≥ 0`,
the matrix `A = M + dt·theta·K (+ Robin term)` assembled by the step is
nonsingular (Gershgorin).  Stated for any state whose `M`, `K`, `RobinAlpha`
agree with a constructed simulation, since the step reads only those. -/
lemma stepA_det_ne_zero {N : ℕ} (S : Simulation N) (L : ℚ) (Mat : Material)
    (hf ta : ℚ → ℚ) (α dt theta : ℚ) (hN : 1 ≤ N) (hL : 0 < L)
    (hrho : 0 < Mat.rho) (hcp : 0 < Mat.cp) (hlmbd : 0 < Mat.lmbd)
    (hdt : 0 < dt) (hth0 : 0 ≤ theta) (hα : 0 ≤ α)
    (hM : S.M = (Simulation.init N L Mat hf ta α).M)
    (hK : S.K = (Simulation.init N L Mat hf ta α).K)
    (hra : S.RobinAlpha = α) :
    (stepA S dt theta).det ≠ 0 := by
  have hNQ : (0 : ℚ) < (N : ℚ) := by
    have : 0 < N := by omega
    exact_mod_cast this
  have hdx : (0 : ℚ) < L / (N : ℚ) := div_pos hL hNQ
  set mq : ℚ := L / (N : ℚ) * Mat.rho * Mat.cp with hmq
  have hm : 0 < mq := mul_pos (mul_pos hdx hrho) hcp
  set sq : ℚ := 1 / (L / (N : ℚ)) * Mat.lmbd with hsq
  have hsq0 : 0 < sq := mul_pos (by positivity) hlmbd
  set g : ℚ := dt * theta with hg
  have hg0 : 0 ≤ g := mul_nonneg hdt.le hth0
  have hgs : 0 ≤ g * sq := mul_nonneg hg0 hsq0.le
  have hga : 0 ≤ g * α := mul_nonneg hg0 hα
  set offv : ℚ := mq * (1/6) + g * (sq * (-1)) with hoffv
  have hoffabs : |offv| ≤ mq * (1/6) + g * sq := by
    have h1 : |offv| ≤ |mq * (1/6)| + |g * (sq * (-1))| := abs_add _ _
    have h2 : |mq * (1/6)| = mq * (1/6) := abs_of_pos (by positivity)
    have h3 : |g * (sq * (-1))| = g * sq := by
      rw [show g * (sq * (-1)) = -(g * sq) by ring, abs_neg,
        abs_of_nonneg hgs]
    rw [h2, h3] at h1
    exact h1
  have hAoff : ∀ k j : Fin (N + 1), j ≠ k →
      stepA S dt theta k j = tridiag N offv 0 offv k j := by
    intro k j hjk
    have hjkv : (j : ℕ) ≠ (k : ℕ) := fun h => hjk (Fin.ext h)
    rw [stepA_apply, hM, init_M_apply, hK, init_K_apply L Mat hf ta α hN,
      if_neg (show ¬ (k = Fin.last N ∧ j = Fin.last N) from
        fun hx => hjk (hx.2.trans hx.1.symm)), add_zero, ← hmq, ← hsq]
    unfold tridiag
    simp only [Matrix.of_apply]
    rw [hoffv, hg]
    split_ifs <;> first | ring1 | omega | (exfalso; omega)
  have hAdiag : ∀ k : Fin (N + 1), stepA S dt theta k k
      = mq * (4/6)
        + (if (k : ℕ) = 0 ∨ (k : ℕ) = N then g * sq else 2 * (g * sq))
        + (if (k : ℕ) = N then g * α else 0) := by
    intro k
    have hvl : ((Fin.last N : Fin (N + 1)) : ℕ) = N := rfl
    have hcond : (k = Fin.last N ∧ k = Fin.last N) ↔ (k : ℕ) = N := by
      constructor
      · intro hx
        rw [hx.1, hvl]
      · intro hx
        have hkl : k = Fin.last N := Fin.ext (by rw [hvl]; exact hx)
        exact ⟨hkl, hkl⟩
    rw [stepA_apply, hM, init_M_apply, hK, init_K_apply L Mat hf ta α hN, hra,
      ← hmq, ← hsq]
    unfold tridiag
    simp only [Matrix.of_apply]
    rw [hg]
    simp only [hcond]
    have hkN' : (k : ℕ) ≤ N := Nat.lt_succ_iff.mp k.isLt
    split_ifs <;> first | ring1 | omega | (exfalso; omega)
  have hdiagpos : ∀ k : Fin (N + 1), 0 < stepA S dt theta k k := by
    intro k
    rw [hAdiag k]
    split_ifs <;> linarith
  have htridiag0 : ∀ k : Fin (N + 1), tridiag N offv 0 offv k k = 0 := by
    intro k
    unfold tridiag
    simp only [Matrix.of_apply]
    rw [if_neg (show ¬ ((k : ℕ) = (k : ℕ) + 1) by omega)]
    simp
  have herase : ∀ k : Fin (N + 1),
      (∑ j ∈ Finset.univ.erase k, |stepA S dt theta k j|)
        = (if 1 ≤ (k : ℕ) then |offv| else 0)
          + (if (k : ℕ) < N then |offv| else 0) := by
    intro k
    have h1 : ∀ j ∈ Finset.univ.erase k,
        |stepA S dt theta k j| = tridiag N |offv| 0 |offv| k j := by
      intro j hj
      rw [hAoff k j (Finset.mem_erase.mp hj).1]
      unfold tridiag
      simp only [Matrix.of_apply]
      split_ifs <;> simp
    have h0 : tridiag N |offv| 0 |offv| k k = 0 := by
      unfold tridiag
      simp only [Matrix.of_apply]
      rw [if_neg (show ¬ ((k : ℕ) = (k : ℕ) + 1) by omega)]
      simp
    rw [Finset.sum_congr rfl h1, Finset.sum_erase Finset.univ h0, tridiag_row_sum]
    ring
  apply det_ne_zero_of_sum_row_lt_diag
  intro k
  have hnorm : ∀ q : ℚ, ‖q‖ = ((|q| : ℚ) : ℝ) := fun q => by
    rw [← Rat.norm_cast_real, Real.norm_eq_abs, Rat.cast_abs]
  have hstep1 : (∑ j ∈ Finset.univ.erase k, ‖stepA S dt theta k j‖)
      = ((∑ j ∈ Finset.univ.erase k, |stepA S dt theta k j| : ℚ) : ℝ) := by
    rw [Rat.cast_sum]
    exact Finset.sum_congr rfl fun j _ => hnorm _
  rw [hstep1, hnorm]
  rw [Rat.cast_lt]
  rw [herase k, abs_of_pos (hdiagpos k), hAdiag k]
  have hkN' : (k : ℕ) ≤ N := Nat.lt_succ_iff.mp k.isLt
  split_ifs <;> first | linarith | omega | (exfalso; omega)

/-- Steady state: one integrator step in the zero-flux, ambient-equals-`T0`
scenario maps the uniform temperature field to itself, for every state whose
matrices come from the constructor with valid mesh, positive material,
`dt > 0`, `theta ∈ [0,1]` and nonnegative Robin coefficient. -/
lemma evaluateNewStep_uniform {N : ℕ} (S : Simulation N) (L : ℚ) (Mat : Material)
    (α T0 dt theta : ℚ) (hN : 1 ≤ N) (hL : 0 < L)
    (hrho : 0 < Mat.rho) (hcp : 0 < Mat.cp) (hlmbd : 0 < Mat.lmbd)
    (hdt : 0 < dt) (hth0 : 0 ≤ theta) (hα : 0 ≤ α)
    (hM : S.M = (Simulation.init N L Mat (fun _ => 0) (fun _ => T0) α).M)
    (hK : S.K = (Simulation.init N L Mat (fun _ => 0) (fun _ => T0) α).K)
    (hra : S.RobinAlpha = α)
    (hT : S.T = fun _ => T0)
    (hHF : S.HeatFlux = fun _ => 0)
    (hTa : S.T_amb = fun _ => T0) :
    EvaluateNewStep S dt theta = fun _ => T0 :=
  evaluateNewStep_unique _ dt theta
    (stepA_det_ne_zero S L Mat (fun _ => 0) (fun _ => T0) α dt theta hN hL hrho hcp
      hlmbd hdt hth0 hα hM hK hra)
    (fun _ => T0)
    (uniform_system_fixed S L Mat α T0 dt theta hN hK hT hHF hTa)


/-- In the steady-state scenario, every iterate of the loop body keeps the
constructor matrices, boundary data and the uniform temperature field. -/
lemma iterate_uniform_fields (N : ℕ) (L : ℚ) (Mat : Material)
    (α T0 t0 dt theta : ℚ) (hN : 1 ≤ N) (hL : 0 < L)
    (hrho : 0 < Mat.rho) (hcp : 0 < Mat.cp) (hlmbd : 0 < Mat.lmbd)
    (hdt : 0 < dt) (hth0 : 0 ≤ theta) (hα : 0 ≤ α) (n : ℕ) :
    ((fun S => forwardStep S theta dt)^[n] (uniformState N L Mat α T0 t0)).M
        = (Simulation.init N L Mat (fun _ => 0) (fun _ => T0) α).M
    ∧ ((fun S => forwardStep S theta dt)^[n] (uniformState N L Mat α T0 t0)).K
        = (Simulation.init N L Mat (fun _ => 0) (fun _ => T0) α).K
    ∧ ((fun S => forwardStep S theta dt)^[n] (uniformState N L Mat α T0 t0)).RobinAlpha = α
    ∧ ((fun S => forwardStep S theta dt)^[n] (uniformState N L Mat α T0 t0)).HeatFlux
        = (fun _ => 0)
    ∧ ((fun S => forwardStep S theta dt)^[n] (uniformState N L Mat α T0 t0)).T_amb
        = (fun _ => T0)
    ∧ ((fun S => forwardStep S theta dt)^[n] (uniformState N L Mat α T0 t0)).T
        = (fun _ => T0) := by
  induction n with
  | zero => exact ⟨rfl, rfl, rfl, rfl, rfl, rfl⟩
  | succ n ih =>
    obtain ⟨ihM, ihK, ihα, ihHF, ihTa, ihT⟩ := ih
    rw [Function.iterate_succ_apply']
    refine ⟨ihM, ihK, ihα, ihHF, ihTa, ?_⟩
    show EvaluateNewStep _ dt theta = fun _ => T0
    exact evaluateNewStep_uniform _ L Mat α T0 dt theta hN hL hrho hcp hlmbd hdt
      hth0 hα ihM ihK ihα ihT ihHF ihTa

/-! ## Claim C2 -/

/-- C2 (amended): for every valid mesh, material with positive `rho`, `cp`,
`lmbd`, every `RobinAlpha ≥ 0`, uniform initial temperature `T0`, `dt > 0`
and `theta ∈ [0,1]`, with zero boundary heat flux and ambient temperature
identically `T0`, one integrator step applied to the uniform vector returns
the same uniform vector, and every iterate of the loop body keeps the
temperature field at `T0` (exact arithmetic).  The `RobinAlpha ≥ 0` bound is
necessary: see the counterexample. -/
theorem C2_uniform_steady_state (N : ℕ) (L : ℚ) (Mat : Material)
    (α T0 t0 dt theta : ℚ) (hN : 1 ≤ N) (hL : 0 < L)
    (hrho : 0 < Mat.rho) (hcp : 0 < Mat.cp) (hlmbd : 0 < Mat.lmbd)
    (hdt : 0 < dt) (hth0 : 0 ≤ theta) (hth1 : theta ≤ 1) (hα : 0 ≤ α) :
    EvaluateNewStep (uniformState N L Mat α T0 t0) dt theta = (fun _ => T0)
    ∧ ∀ n : ℕ,
      ((fun S => forwardStep S theta dt)^[n] (uniformState N L Mat α T0 t0)).T
        = (fun _ => T0) := by
  constructor
  · exact evaluateNewStep_uniform _ L Mat α T0 dt theta hN hL hrho hcp hlmbd hdt
      hth0 hα rfl rfl rfl rfl rfl rfl
  · intro n
    exact (iterate_uniform_fields N L Mat α T0 t0 dt theta hN hL hrho hcp hlmbd
      hdt hth0 hα n).2.2.2.2.2

/-- Concrete steady-state scenario with a negative Robin coefficient that
makes the stepped system singular: `N = 1`, `L = 1`,
material `(rho, cp, lmbd) = (6, 1, 1)`, `RobinAlpha = -5`, `T0 = 21`,
`dt = 1`, `theta = 1`. -/
def singState : Simulation 1 := uniformState 1 1 ⟨6, 1, 1⟩ (-5) 21 0

lemma singState_M_apply : ∀ i j : Fin 2, singState.M i j
    = 6 * tridiag 1 (1/6) (4/6) (1/6) i j := by
  intro i j
  have h : singState.M i j
      = (1 / ((1 : ℕ) : ℚ) * 6 * 1) * tridiag 1 (1/6) (4/6) (1/6) i j :=
    init_M_apply 1 ⟨6, 1, 1⟩ (fun _ => 0) (fun _ => 21) (-5) i j
  rw [h]
  norm_num

lemma singState_K_apply : ∀ i j : Fin 2, singState.K i j
    = (if (i : ℕ) = (j : ℕ) + 1 then -1
       else if (i : ℕ) = (j : ℕ) then
         (if (i : ℕ) = 0 ∨ (i : ℕ) = 1 then 1 else 2)
       else if (j : ℕ) = (i : ℕ) + 1 then -1 else 0) := by
  intro i j
  have h : singState.K i j
      = (1 / (1 / ((1 : ℕ) : ℚ)) * 1)
        * (if (i : ℕ) = (j : ℕ) + 1 then -1
           else if (i : ℕ) = (j : ℕ) then
             (if (i : ℕ) = 0 ∨ (i : ℕ) = 1 then 1 else 2)
           else if (j : ℕ) = (i : ℕ) + 1 then -1 else 0) :=
    init_K_apply 1 ⟨6, 1, 1⟩ (fun _ => 0) (fun _ => 21) (-5) (by omega) i j
  rw [h]
  norm_num

lemma singState_det_zero : (stepA singState 1 1).det = 0 := by
  have hv0 : ((0 : Fin 2) : ℕ) = 0 := rfl
  have hv1 : ((1 : Fin 2) : ℕ) = 1 := rfl
  have hvl : ((Fin.last 1 : Fin 2) : ℕ) = 1 := rfl
  have hl1 : (Fin.last 1 : Fin 2) = 1 := rfl
  have h00 : stepA singState 1 1 0 0 = 5 := by
    rw [stepA_apply, singState_M_apply, singState_K_apply]
    rw [if_neg (show ¬ ((0 : Fin 2) = Fin.last 1 ∧ (0 : Fin 2) = Fin.last 1) by
      intro hx
      exact absurd (congrArg Fin.val hx.1) (by decide))]
    rw [tridiag_apply_eq_add]
    simp only [hv0]
    norm_num [singState]
  have h01 : stepA singState 1 1 0 1 = 0 := by
    rw [stepA_apply, singState_M_apply, singState_K_apply]
    rw [if_neg (show ¬ ((0 : Fin 2) = Fin.last 1 ∧ (1 : Fin 2) = Fin.last 1) by
      intro hx
      exact absurd (congrArg Fin.val hx.1) (by decide))]
    rw [tridiag_apply_eq_add]
    simp only [hv0, hv1]
    norm_num [singState]
  have h10 : stepA singState 1 1 1 0 = 0 := by
    rw [stepA_apply, singState_M_apply, singState_K_apply]
    rw [if_neg (show ¬ ((1 : Fin 2) = Fin.last 1 ∧ (0 : Fin 2) = Fin.last 1) by
      intro hx
      exact absurd (congrArg Fin.val hx.2) (by decide))]
    rw [tridiag_apply_eq_add]
    simp only [hv0, hv1]
    norm_num [singState]
  have h11 : stepA singState 1 1 1 1 = 0 := by
    rw [stepA_apply, singState_M_apply, singState_K_apply,
      (show singState.RobinAlpha = -5 from rfl)]
    rw [if_pos (show (1 : Fin 2) = Fin.last 1 ∧ (1 : Fin 2) = Fin.last 1 from
      ⟨hl1.symm, hl1.symm⟩)]
    rw [tridiag_apply_eq_add]
    simp only [hv1]
    norm_num
  rw [Matrix.det_fin_two, h00, h01, h10, h11]
  norm_num

/-- Counterexample to C2 as stated: with `RobinAlpha = -5 < 0` the claim's
scenario (positive material, zero flux, ambient `= T0 = 21`, uniform
`T_prev = 21`, `dt = 1 > 0`, `theta = 1 ∈ [0,1]`) produces a singular
system matrix, and the step does not return the uniform vector (the real
code's `spsolve` returns a non-finite vector there; in this exact model the
degenerate Cramer value is the zero vector). -/
theorem C2_counterexample :
    (stepA singState 1 1).det = 0
    ∧ EvaluateNewStep singState 1 1 ≠ (fun _ => (21 : ℚ)) := by
  refine ⟨singState_det_zero, ?_⟩
  have hz : EvaluateNewStep singState 1 1 = fun _ => 0 := by
    unfold EvaluateNewStep
    rw [singState_det_zero, (show (0 : ℚ)⁻¹ = 0 by norm_num), zero_smul]
    rfl
  rw [hz]
  intro heq
  have h0 := congrFun heq 0
  norm_num at h0

/-- Witness instantiating the amended C2 at `N = 1`, `L = 1`, Steel,
`RobinAlpha = 10`, `T0 = 21`, `dt = 1`, `theta = 1/2`. -/
theorem C2_uniform_steady_state_witness :
    ((0 : ℚ) < 1 ∧ (0 : ℚ) < 7850 ∧ (0 : ℚ) ≤ 10 ∧ (0 : ℚ) ≤ 1/2 ∧ (1/2 : ℚ) ≤ 1)
    ∧ EvaluateNewStep (uniformState 1 1 Steel 10 21 0) 1 (1/2)
        = (fun _ => (21 : ℚ)) :=
  ⟨⟨by norm_num, by norm_num, by norm_num, by norm_num, by norm_num⟩,
    (C2_uniform_steady_state 1 1 Steel 10 21 0 1 (1/2) (by norm_num) (by norm_num)
      (by norm_num [Steel]) (by norm_num [Steel]) (by norm_num [Steel])
      (by norm_num) (by norm_num) (by norm_num) (by norm_num)).1⟩

/-! ## Claim C4 -/

/-- Counterexample to C4 as stated: construction with an invalid mesh
(`L = -1 ≤ 0`) and an invalid material (`rho = -1 ≤ 0`) does not fail with
`InvalidMeshError`/`InvalidMaterialError` (no such errors exist in the code);
it succeeds and the simulation can start. -/
theorem C4_counterexample :
    ((-1 : ℚ) < 0)
    ∧ (Simulation.init? 2 (-1) ⟨-1, 520, 50⟩ (fun _ => 0) (fun _ => 0) 10).isOk
        = true :=
  ⟨by norm_num, rfl⟩

/-- C4 (amended): construction performs no input validation.  For every
`N ≥ 1` and every `Length ≠ 0` it succeeds — including invalid
configurations such as `L < 0` or non-positive material values — assembling
the matrices from whatever is given.  The only failures are unstructured
`ZeroDivisionError`s: at `dx = Length/N` when `N = 0`, and at the
`(1/self.dx)` stiffness assembly when `N ≥ 1` and `Length = 0`; neither is
an `InvalidMeshError`/`InvalidMaterialError` (no such errors exist). -/
theorem C4_no_validation (N : ℕ) (L : ℚ) (Mat : Material) (hf ta : ℚ → ℚ)
    (α : ℚ) :
    (1 ≤ N → L ≠ 0 → (Simulation.init? N L Mat hf ta α).isOk = true)
    ∧ (N = 0 → Simulation.init? N L Mat hf ta α = .error .zeroDivision)
    ∧ (1 ≤ N → L = 0 → Simulation.init? N L Mat hf ta α
        = .error .zeroDivision) := by
  refine ⟨?_, ?_, ?_⟩
  · intro hN hL
    unfold Simulation.init?
    rw [if_neg (by omega), if_neg hL]
    rfl
  · intro h
    subst h
    rfl
  · intro hN hL
    subst hL
    unfold Simulation.init?
    rw [if_neg (by omega), if_pos rfl]

/-- Witness instantiating C4 (amended): an invalid-parameter construction
(`L = -1`, `rho = -1`) succeeds, while the `N = 0` and the `L = 0`
constructions raise only division errors. -/
theorem C4_no_validation_witness :
    (Simulation.init? 2 (-1) ⟨-1, 520, 50⟩ (fun _ => 0) (fun _ => 0) 10).isOk
        = true
    ∧ Simulation.init? 0 1 Steel (fun _ => 0) (fun _ => 0) 10
        = .error .zeroDivision
    ∧ Simulation.init? 2 0 Steel (fun _ => 0) (fun _ => 0) 10
        = .error .zeroDivision :=
  ⟨(C4_no_validation 2 (-1) ⟨-1, 520, 50⟩ (fun _ => 0) (fun _ => 0) 10).1
      (by omega) (by norm_num),
   (C4_no_validation 0 1 Steel (fun _ => 0) (fun _ => 0) 10).2.1 rfl,
   (C4_no_validation 2 0 Steel (fun _ => 0) (fun _ => 0) 10).2.2 (by omega) rfl⟩

/-! ## Claim C5 -/

/-- Counterexample to C5 as stated: at a concrete state where the assembled
matrix is exactly singular, the step does not fail with
`SingularSystemError` (no such error exists): it completes and returns the
degenerate solve output (non-finite in the real code, where `spsolve` only
emits a warning; the zero vector in this exact model). -/
theorem C5_counterexample :
    (stepA singState 1 1).det = 0
    ∧ EvaluateNewStep singState 1 1 = (fun _ => (0 : ℚ)) := by
  refine ⟨singState_det_zero, ?_⟩
  unfold EvaluateNewStep
  rw [singState_det_zero, (show (0 : ℚ)⁻¹ = 0 by norm_num), zero_smul]
  rfl

/-- C5 (amended): the step has no error path at all.  It unconditionally
returns the sparse-solve output: when `A` is nonsingular that output is the
exact solution of `A·x = b`, and when `A` is singular the step still
returns (a degenerate value) rather than raising a structured error; no
finiteness check is performed on the result. -/
theorem C5_no_error_path (N : ℕ) (S : Simulation N) (dt theta : ℚ) :
    ((stepA S dt theta).det ≠ 0 →
      (stepA S dt theta).mulVec (EvaluateNewStep S dt theta) = stepb S dt theta)
    ∧ ((stepA S dt theta).det = 0 →
      EvaluateNewStep S dt theta = fun _ => 0) := by
  constructor
  · exact evaluateNewStep_solves S dt theta
  · intro h
    unfold EvaluateNewStep
    rw [h, (show (0 : ℚ)⁻¹ = 0 by norm_num), zero_smul]
    rfl

/-- Witness instantiating C5 (amended) at a nonsingular state and at the
singular state. -/
theorem C5_no_error_path_witness :
    ((stepA demoState 1 (1/2)).det ≠ 0
      ∧ (stepA demoState 1 (1/2)).mulVec (EvaluateNewStep demoState 1 (1/2))
          = stepb demoState 1 (1/2))
    ∧ ((stepA singState 1 1).det = 0
      ∧ EvaluateNewStep singState 1 1 = fun _ => 0) :=
  ⟨⟨demoState_stepA_det,
    (C5_no_error_path 1 demoState 1 (1/2)).1 demoState_stepA_det⟩,
   ⟨singState_det_zero,
    (C5_no_error_path 1 singState 1 1).2 singState_det_zero⟩⟩

/-! ## Claim C9 -/

/-- C9: one integrator step is pure and deterministic.  Its result depends
only on the fields it reads (`M`, `K`, `T`, the last time entry,
`RobinAlpha`, `HeatFlux`, `T_amb`) — two states agreeing there produce the
same result — and it mutates nothing: in the loop the caller alone updates
the state, leaving `M`, `K` and the descriptive fields unchanged and
appending exactly the returned vector and the next time to the histories. -/
theorem C9_step_purity (N : ℕ) (S1 S2 : Simulation N) (dt theta : ℚ)
    (hM : S1.M = S2.M) (hK : S1.K = S2.K) (hT : S1.T = S2.T)
    (ht : tLast S1 = tLast S2) (hra : S1.RobinAlpha = S2.RobinAlpha)
    (hHF : S1.HeatFlux = S2.HeatFlux) (hTa : S1.T_amb = S2.T_amb) :
    EvaluateNewStep S1 dt theta = EvaluateNewStep S2 dt theta
    ∧ (forwardStep S1 theta dt).M = S1.M
    ∧ (forwardStep S1 theta dt).K = S1.K
    ∧ (forwardStep S1 theta dt).Mat = S1.Mat
    ∧ (forwardStep S1 theta dt).HeatFlux = S1.HeatFlux
    ∧ (forwardStep S1 theta dt).T_amb = S1.T_amb
    ∧ (forwardStep S1 theta dt).RobinAlpha = S1.RobinAlpha
    ∧ (forwardStep S1 theta dt).T_record
        = S1.T_record ++ [EvaluateNewStep S1 dt theta]
    ∧ (forwardStep S1 theta dt).t = S1.t ++ [tLast S1 + dt] := by
  have hA : stepA S1 dt theta = stepA S2 dt theta := by
    unfold stepA
    rw [hM, hK, hra]
  have hb : stepb S1 dt theta = stepb S2 dt theta := by
    funext i
    rw [stepb_apply, stepb_apply, hM, hK, hT, ht, hra, hHF, hTa]
  refine ⟨?_, rfl, rfl, rfl, rfl, rfl, rfl, rfl, rfl⟩
  unfold EvaluateNewStep
  rw [hA, hb]

/-- Witness instantiating C9 at a concrete state (the two states equal, all
frame hypotheses by `rfl`). -/
theorem C9_step_purity_witness :
    EvaluateNewStep demoState 1 (1/2) = EvaluateNewStep demoState 1 (1/2)
    ∧ (forwardStep demoState (1/2) 1).t = demoState.t ++ [tLast demoState + 1] :=
  ⟨(C9_step_purity 1 demoState demoState 1 (1/2) rfl rfl rfl rfl rfl rfl rfl).1,
   (C9_step_purity 1 demoState demoState 1 (1/2) rfl rfl rfl rfl rfl rfl
      rfl).2.2.2.2.2.2.2.2⟩

/-! ## The forward simulation loop: history invariants and termination -/

lemma forwardLoop_succ {N : ℕ} (fuel : ℕ) (S : Simulation N)
    (theta dt t_stop : ℚ) :
    forwardLoop (fuel + 1) S theta dt t_stop
      = if tLast S < t_stop then
          forwardLoop fuel (forwardStep S theta dt) theta dt t_stop
        else S := rfl

lemma forwardStep_t {N : ℕ} (S : Simulation N) (theta dt : ℚ) :
    (forwardStep S theta dt).t = S.t ++ [tLast S + dt] := rfl

lemma forwardStep_T_record {N : ℕ} (S : Simulation N) (theta dt : ℚ) :
    (forwardStep S theta dt).T_record
      = S.T_record ++ [EvaluateNewStep S dt theta] := rfl

lemma tLast_forwardStep {N : ℕ} (S : Simulation N) (theta dt : ℚ) :
    tLast (forwardStep S theta dt) = tLast S + dt := by
  show (S.t ++ [tLast S + dt]).getLastD 0 = tLast S + dt
  rw [List.getLastD_eq_getLast?, List.getLast?_concat]
  rfl

/-- One committed step preserves the history invariants: nonempty, strictly
increasing time, equal history lengths; each history grows by exactly one. -/
lemma forwardStep_invariant {N : ℕ} (S : Simulation N) (theta dt : ℚ)
    (hdt : 0 < dt) (h1 : S.t ≠ []) (h2 : List.Chain' (· < ·) S.t)
    (h3 : S.t.length = S.T_record.length) :
    (forwardStep S theta dt).t ≠ []
    ∧ List.Chain' (· < ·) (forwardStep S theta dt).t
    ∧ (forwardStep S theta dt).t.length = (forwardStep S theta dt).T_record.length
    ∧ (forwardStep S theta dt).t.length = S.t.length + 1 := by
  refine ⟨by simp [forwardStep_t], ?_, ?_, ?_⟩
  · rw [forwardStep_t, List.chain'_append]
    refine ⟨h2, List.chain'_singleton _, ?_⟩
    intro x hx y hy
    have hy' : tLast S + dt = y := by simpa using hy
    have hx' : tLast S = x := by
      unfold tLast
      rw [List.getLastD_eq_getLast?, Option.mem_def.mp hx]
      rfl
    rw [← hy', ← hx']
    linarith
  · rw [forwardStep_t, forwardStep_T_record, List.length_append,
      List.length_append, h3]
    rfl
  · rw [forwardStep_t, List.length_append]
    rfl

/-- The history invariants hold at every point of the loop (any fuel). -/
lemma forwardLoop_invariant {N : ℕ} (theta dt t_stop : ℚ) (hdt : 0 < dt) :
    ∀ (fuel : ℕ) (S : Simulation N), S.t ≠ [] → List.Chain' (· < ·) S.t →
      S.t.length = S.T_record.length →
      (forwardLoop fuel S theta dt t_stop).t ≠ []
      ∧ List.Chain' (· < ·) (forwardLoop fuel S theta dt t_stop).t
      ∧ (forwardLoop fuel S theta dt t_stop).t.length
          = (forwardLoop fuel S theta dt t_stop).T_record.length := by
  intro fuel
  induction fuel with
  | zero => exact fun S h1 h2 h3 => ⟨h1, h2, h3⟩
  | succ fuel ih =>
    intro S h1 h2 h3
    rw [forwardLoop_succ]
    by_cases hc : tLast S < t_stop
    · rw [if_pos hc]
      obtain ⟨g1, g2, g3, _⟩ := forwardStep_invariant S theta dt hdt h1 h2 h3
      exact ih (forwardStep S theta dt) g1 g2 g3
    · rw [if_neg hc]
      exact ⟨h1, h2, h3⟩

/-! ## Claim C8 -/

/-- C8: for every forward-simulation run with `dt > 0` on a fresh state, at
every point during and after the run (any fuel, i.e. any number of executed
iterations) the time history is strictly increasing and has the same length
as the temperature history, and each committed step appends exactly one
entry to each history. -/
theorem C8_monotonic_history (N : ℕ) (S : Simulation N)
    (theta T0 dt t_start t_stop : ℚ) (fuel : ℕ) (hdt : 0 < dt)
    (ht0 : S.t = []) (hr0 : S.T_record = []) :
    List.Pairwise (· < ·) (ForwardSimulation S theta T0 dt t_start t_stop fuel).t
    ∧ (ForwardSimulation S theta T0 dt t_start t_stop fuel).t.length
        = (ForwardSimulation S theta T0 dt t_start t_stop fuel).T_record.length
    ∧ ∀ S' : Simulation N,
        (forwardStep S' theta dt).t.length = S'.t.length + 1
        ∧ (forwardStep S' theta dt).T_record.length = S'.T_record.length + 1 := by
  have h0 : ({ S with
      T := fun _ => T0
      t := S.t ++ [t_start]
      T_record := S.T_record ++ [fun _ => T0] } : Simulation N).t = S.t ++ [t_start] :=
    rfl
  have hinv := forwardLoop_invariant theta dt t_stop hdt fuel
    { S with
      T := fun _ => T0
      t := S.t ++ [t_start]
      T_record := S.T_record ++ [fun _ => T0] }
    (by rw [h0, ht0]; simp)
    (by rw [h0, ht0]; exact List.chain'_singleton _)
    (by show (S.t ++ [t_start]).length = (S.T_record ++ [fun _ => T0]).length
        rw [ht0, hr0]
        rfl)
  refine ⟨?_, hinv.2.2, ?_⟩
  · exact (List.chain'_iff_pairwise.mp hinv.2.1)
  · intro S'
    constructor
    · rw [forwardStep_t, List.length_append]
      rfl
    · rw [forwardStep_T_record, List.length_append]
      rfl

/-- Fresh simulation (empty histories) used to instantiate run theorems. -/
def freshState : Simulation 1 :=
  Simulation.init 1 1 Steel (fun _ => 0) (fun _ => 0) 10

/-- Witness instantiating C8: a fresh state, `dt = 1`. -/
theorem C8_monotonic_history_witness :
    (0 : ℚ) < 1
    ∧ List.Pairwise (· < ·) (ForwardSimulation freshState (1/2) 0 1 0 1 3).t
    ∧ (ForwardSimulation freshState (1/2) 0 1 0 1 3).t.length
        = (ForwardSimulation freshState (1/2) 0 1 0 1 3).T_record.length :=
  ⟨by norm_num,
   (C8_monotonic_history 1 freshState (1/2) 0 1 0 1 3 (by norm_num) rfl rfl).1,
   (C8_monotonic_history 1 freshState (1/2) 0 1 0 1 3 (by norm_num) rfl rfl).2.1⟩

/-! ## Claim C10 -/

/-- Explicit description of the iterated loop body from a single-entry time
history: after `n` steps the time history is the arithmetic progression and
the temperature history has `n + 1` entries. -/
lemma iterate_forwardStep_t {N : ℕ} (S0 : Simulation N) (theta dt t_start : ℚ)
    (h0 : S0.t = [t_start]) (hr0 : S0.T_record.length = 1) :
    ∀ n : ℕ,
      ((fun S => forwardStep S theta dt)^[n] S0).t
          = (List.range (n + 1)).map (fun j : ℕ => t_start + (j : ℚ) * dt)
      ∧ tLast ((fun S => forwardStep S theta dt)^[n] S0)
          = t_start + (n : ℚ) * dt
      ∧ ((fun S => forwardStep S theta dt)^[n] S0).T_record.length = n + 1 := by
  intro n
  induction n with
  | zero =>
    refine ⟨?_, ?_, ?_⟩
    · rw [Function.iterate_zero_apply, h0]
      simp [List.range_succ]
    · rw [Function.iterate_zero_apply]
      unfold tLast
      rw [h0]
      simp
    · rw [Function.iterate_zero_apply, hr0]
  | succ n ih =>
    obtain ⟨ih1, ih2, ih3⟩ := ih
    refine ⟨?_, ?_, ?_⟩
    · rw [Function.iterate_succ_apply', forwardStep_t, ih1, ih2]
      have hrs : List.range (n + 1 + 1) = List.range (n + 1) ++ [n + 1] :=
        List.range_succ (n + 1)
      have helem : t_start + (n : ℚ) * dt + dt
          = t_start + ((n + 1 : ℕ) : ℚ) * dt := by
        push_cast
        ring
      rw [helem, hrs, List.map_append, List.map_singleton]
    · rw [Function.iterate_succ_apply', tLast_forwardStep, ih2]
      push_cast
      ring
    · rw [Function.iterate_succ_apply', forwardStep_T_record, List.length_append,
        ih3]
      rfl

/-- The loop with enough fuel runs exactly to the first iterate whose last
time has reached `t_stop`. -/
lemma forwardLoop_eq_iterate {N : ℕ} (theta dt t_stop : ℚ) :
    ∀ (m fuel : ℕ) (S : Simulation N), m ≤ fuel →
      (∀ j, j < m → tLast ((fun S => forwardStep S theta dt)^[j] S) < t_stop) →
      ¬ (tLast ((fun S => forwardStep S theta dt)^[m] S) < t_stop) →
      forwardLoop fuel S theta dt t_stop
        = (fun S => forwardStep S theta dt)^[m] S := by
  intro m
  induction m with
  | zero =>
    intro fuel S hmf hlt hstop
    rw [Function.iterate_zero_apply]
    rw [Function.iterate_zero_apply] at hstop
    cases fuel with
    | zero => rfl
    | succ fuel => rw [forwardLoop_succ, if_neg hstop]
  | succ m ih =>
    intro fuel S hmf hlt hstop
    cases fuel with
    | zero => omega
    | succ fuel =>
      have hc : tLast S < t_stop := by
        have := hlt 0 (by omega)
        rwa [Function.iterate_zero_apply] at this
      rw [forwardLoop_succ, if_pos hc]
      rw [Function.iterate_succ_apply]
      rw [Function.iterate_succ_apply] at hstop
      apply ih fuel (forwardStep S theta dt) (by omega)
      · intro j hj
        have hjj := hlt (j + 1) (by omega)
        rwa [Function.iterate_succ_apply] at hjj
      · exact hstop

/-- C10: for every `t_start < t_stop` and `dt > 0`, the forward loop
terminates after exactly `k = ⌈(t_stop − t_start)/dt⌉` iterations (any fuel
of at least `k` yields the same completed run): the time history is the
arithmetic progression `t_start, …, t_start + k·dt`, the last recorded time
is the first value `t_start + j·dt` that reaches `t_stop`, it overshoots
`t_stop` by strictly less than `dt`, and the history length (for `t` and for
the temperature record) is `k + 1`. -/
theorem C10_termination_horizon (N : ℕ) (S : Simulation N)
    (theta T0 dt t_start t_stop : ℚ) (fuel k : ℕ) (hdt : 0 < dt)
    (hts : t_start < t_stop) (ht0 : S.t = []) (hr0 : S.T_record = [])
    (hk : (k : ℤ) = ⌈(t_stop - t_start) / dt⌉) (hfuel : k ≤ fuel) :
    (ForwardSimulation S theta T0 dt t_start t_stop fuel).t
        = (List.range (k + 1)).map (fun j : ℕ => t_start + (j : ℚ) * dt)
    ∧ tLast (ForwardSimulation S theta T0 dt t_start t_stop fuel)
        = t_start + (k : ℚ) * dt
    ∧ t_stop ≤ t_start + (k : ℚ) * dt
    ∧ (∀ j : ℕ, j < k → t_start + (j : ℚ) * dt < t_stop)
    ∧ t_start + (k : ℚ) * dt < t_stop + dt
    ∧ (ForwardSimulation S theta T0 dt t_start t_stop fuel).t.length = k + 1
    ∧ (ForwardSimulation S theta T0 dt t_start t_stop fuel).T_record.length
        = k + 1 := by
  set r : ℚ := (t_stop - t_start) / dt with hr
  have hrpos : 0 < r := div_pos (by linarith) hdt
  have hkc : ((k : ℚ) : ℚ) = ((⌈r⌉ : ℤ) : ℚ) := by
    exact_mod_cast congrArg (fun z : ℤ => (z : ℚ)) hk
  have hkge : r ≤ (k : ℚ) := by
    rw [hkc]
    exact Int.le_ceil r
  have hklt : (k : ℚ) - 1 < r := by
    rw [hkc]
    have := Int.ceil_lt_add_one r
    linarith
  have hk1 : 1 ≤ k := by
    by_contra hcon
    have hk0 : k = 0 := by omega
    rw [hk0] at hkge
    norm_num at hkge
    linarith
  have hreach : ∀ j : ℕ, j < k → t_start + (j : ℚ) * dt < t_stop := by
    intro j hj
    have hjk : (j : ℚ) ≤ (k : ℚ) - 1 := by
      have : (j : ℚ) + 1 ≤ (k : ℚ) := by exact_mod_cast hj
      linarith
    have hjr : (j : ℚ) < r := lt_of_le_of_lt hjk hklt
    have := (mul_lt_mul_of_pos_right hjr hdt)
    rw [hr, div_mul_cancel₀ _ (ne_of_gt hdt)] at this
    linarith
  have hstop : t_stop ≤ t_start + (k : ℚ) * dt := by
    have := mul_le_mul_of_nonneg_right hkge hdt.le
    rw [hr, div_mul_cancel₀ _ (ne_of_gt hdt)] at this
    linarith
  set S0 : Simulation N := { S with
    T := fun _ => T0
    t := S.t ++ [t_start]
    T_record := S.T_record ++ [fun _ => T0] } with hS0
  have hS0t : S0.t = [t_start] := by
    rw [hS0]
    show S.t ++ [t_start] = [t_start]
    rw [ht0]
    rfl
  have hS0r : S0.T_record.length = 1 := by
    rw [hS0]
    show (S.T_record ++ [fun _ => T0]).length = 1
    rw [hr0]
    rfl
  have hiter := iterate_forwardStep_t S0 theta dt t_start hS0t hS0r
  have hrun : ForwardSimulation S theta T0 dt t_start t_stop fuel
      = (fun S => forwardStep S theta dt)^[k] S0 := by
    show forwardLoop fuel S0 theta dt t_stop = _
    apply forwardLoop_eq_iterate theta dt t_stop k fuel S0 hfuel
    · intro j hj
      rw [(hiter j).2.1]
      exact hreach j hj
    · rw [(hiter k).2.1]
      linarith
  rw [hrun]
  exact ⟨(hiter k).1, (hiter k).2.1, hstop, hreach, by
    have := hreach (k - 1) (by omega)
    have hcast : ((k - 1 : ℕ) : ℚ) = (k : ℚ) - 1 := by
      have : (1 : ℕ) ≤ k := hk1
      push_cast [Nat.cast_sub this]
      ring
    rw [hcast] at this
    nlinarith [hdt], by
    rw [(hiter k).1, List.length_map, List.length_range], (hiter k).2.2⟩

/-- Witness instantiating C10: fresh state, `t_start = 0`, `t_stop = 1`,
`dt = 1`, so `k = 1` and the run commits exactly one step. -/
theorem C10_termination_horizon_witness :
    ((0 : ℚ) < 1 ∧ (0 : ℚ) < 1 ∧ ((1 : ℕ) : ℤ) = ⌈((1 : ℚ) - 0) / 1⌉)
    ∧ (ForwardSimulation freshState (1/2) 0 1 0 1 2).t.length = 1 + 1
    ∧ tLast (ForwardSimulation freshState (1/2) 0 1 0 1 2) = 0 + (1 : ℚ) * 1 := by
  have hk : ((1 : ℕ) : ℤ) = ⌈((1 : ℚ) - 0) / 1⌉ := by
    norm_num
  have h := C10_termination_horizon 1 freshState (1/2) 0 1 0 1 2 1 (by norm_num)
    (by norm_num) rfl rfl hk (by omega)
  exact ⟨⟨by norm_num, by norm_num, hk⟩, h.2.2.2.2.2.1, h.2.1⟩

/-! ## Controller loop: claims C6 and C7 -/

lemma controllerLoop_succ {N : ℕ} (fuel : ℕ) (cb : Callback) (queue : List String)
    (cs : ControllerSim N) :
    controllerLoop (fuel + 1) cb queue cs
      = if cs.simulation_has_finished then (cb, queue, cs)
        else
          let r := Callback.call cb cs.current_t queue false
          if r.1.simulation_state = "running" then
            controllerLoop fuel r.1 r.2 cs.evaluate_one_step
          else if r.1.simulation_state = "paused" then
            controllerLoop fuel r.1 r.2 cs
          else if r.1.simulation_state = "stopped" then (r.1, r.2, cs)
          else controllerLoop fuel r.1 r.2 cs := rfl

/-- Polling an empty control queue never changes the run/pause/stop state
(and, being non-blocking, returns immediately with the state unchanged). -/
lemma callback_call_state_nil (c : Callback) (t : ℚ) (f : Bool) :
    (Callback.call c t [] f).1.simulation_state = c.simulation_state := by
  unfold Callback.call
  by_cases h : t > c.last_call + c.call_at ∨ f = true
  · simp [h]
  · simp [h]

/-! ## Claim C7 -/

/-- C7: on every invocation the callback consumes at most one pending
control message (none from an empty queue — the poll is non-blocking and
total), the head message alone is consumed, `pause`/`stop`/`continue` set
the corresponding state, and any other message leaves the state unchanged
(ignored, non-fatal). -/
theorem C7_callback_poll (cb : Callback) (current_t : ℚ) (force_update : Bool) :
    (Callback.call cb current_t [] force_update).2 = []
    ∧ (∀ msg rest, (Callback.call cb current_t (msg :: rest) force_update).2 = rest)
    ∧ (∀ rest, (Callback.call cb current_t ("pause" :: rest)
        force_update).1.simulation_state = "paused")
    ∧ (∀ rest, (Callback.call cb current_t ("stop" :: rest)
        force_update).1.simulation_state = "stopped")
    ∧ (∀ rest, (Callback.call cb current_t ("continue" :: rest)
        force_update).1.simulation_state = "running")
    ∧ (∀ msg rest, msg ≠ "stop" → msg ≠ "pause" → msg ≠ "continue" →
        (Callback.call cb current_t (msg :: rest)
          force_update).1.simulation_state = cb.simulation_state) := by
  refine ⟨rfl, ?_, ?_, ?_, ?_, ?_⟩
  · intro msg rest
    unfold Callback.call
    by_cases h1 : msg = "stop"
    · simp [h1]
    · by_cases h2 : msg = "pause"
      · simp [h1, h2]
      · by_cases h3 : msg = "continue"
        · simp [h1, h2, h3]
        · simp [h1, h2, h3]
  · intro rest
    rfl
  · intro rest
    rfl
  · intro rest
    rfl
  · intro msg rest h1 h2 h3
    unfold Callback.call
    simp only [h1, h2, h3, if_false]
    by_cases h : current_t > cb.last_call + cb.call_at ∨ force_update = true
    · simp [h, h1, h2, h3]
    · simp [h, h1, h2, h3]

/-- Witness instantiating C7: empty queue, a recognised and an unrecognised
message. -/
theorem C7_callback_poll_witness :
    (Callback.call (Callback.mk0 500) 0 [] false).2 = []
    ∧ (Callback.call (Callback.mk0 500) 0 ["bogus", "x"] false).2 = ["x"]
    ∧ (Callback.call (Callback.mk0 500) 0 ["pause"] false).1.simulation_state
        = "paused"
    ∧ (Callback.call (Callback.mk0 500) 0 ["bogus"] false).1.simulation_state
        = "running" :=
  ⟨(C7_callback_poll (Callback.mk0 500) 0 false).1,
   (C7_callback_poll (Callback.mk0 500) 0 false).2.1 "bogus" ["x"],
   (C7_callback_poll (Callback.mk0 500) 0 false).2.2.1 ["pause"],
   ((C7_callback_poll (Callback.mk0 500) 0 false).2.2.2.2.2 "bogus" []
      (by decide) (by decide) (by decide)).trans rfl⟩

/-! ## Claim C6 -/

/-- C6: if a `stop` control message is pending after `k` steps have been
committed (history length `k + 1`) and the run has not finished, the
controller loop exits on that iteration without committing any further
step: the simulation state is returned unchanged, the temperature history
still has length `k + 1`, and the terminal state is `"stopped"`, not
`"finished"`. -/
theorem C6_stop_truncation (N : ℕ) (cs : ControllerSim N) (cb : Callback)
    (k fuel : ℕ) (hnf : cs.simulation_has_finished = false)
    (hlen : cs.sim.T_record.length = k + 1) :
    (completeSimulation (fuel + 1) cb ["stop"] cs).2.2 = cs
    ∧ (completeSimulation (fuel + 1) cb ["stop"] cs).2.2.sim.T_record.length
        = k + 1
    ∧ (completeSimulation (fuel + 1) cb ["stop"] cs).1.simulation_state
        = "stopped"
    ∧ (completeSimulation (fuel + 1) cb ["stop"] cs).1.simulation_state
        ≠ "finished" := by
  have hstate : (Callback.call cb cs.current_t ["stop"] false).1.simulation_state
      = "stopped" := rfl
  have hq : (Callback.call cb cs.current_t ["stop"] false).2 = [] := rfl
  have hloop : controllerLoop (fuel + 1) cb ["stop"] cs
      = ((Callback.call cb cs.current_t ["stop"] false).1, [], cs) := by
    rw [controllerLoop_succ]
    simp only [hnf, Bool.false_eq_true, if_false, hstate, hq]
    rw [if_neg (by decide), if_neg (by decide), if_pos trivial]
  have hcs : completeSimulation (fuel + 1) cb ["stop"] cs
      = ((Callback.call (Callback.call cb cs.current_t ["stop"] false).1
            cs.current_t [] true).1,
         (Callback.call (Callback.call cb cs.current_t ["stop"] false).1
            cs.current_t [] true).2,
         cs) := by
    unfold completeSimulation
    rw [hloop]
  rw [hcs]
  refine ⟨rfl, hlen, ?_, ?_⟩
  · rw [callback_call_state_nil, hstate]
  · rw [callback_call_state_nil, hstate]
    decide

/-- Concrete controller scenario: one committed entry (the initial
condition), time horizon not yet reached. -/
def demoControllerSim : ControllerSim 1 :=
  { sim := { freshState with T := fun _ => 0, t := [0], T_record := [fun _ => 0] }
    theta := 1/2
    dt := 1
    t_stop := 1 }

/-- Witness instantiating C6 at the concrete scenario with `k = 0`. -/
theorem C6_stop_truncation_witness :
    demoControllerSim.simulation_has_finished = false
    ∧ demoControllerSim.sim.T_record.length = 0 + 1
    ∧ (completeSimulation 1 (Callback.mk0 500) ["stop"]
        demoControllerSim).1.simulation_state = "stopped"
    ∧ (completeSimulation 1 (Callback.mk0 500) ["stop"]
        demoControllerSim).2.2.sim.T_record.length = 0 + 1 := by
  have hnf : demoControllerSim.simulation_has_finished = false := by decide
  have h := C6_stop_truncation 1 demoControllerSim (Callback.mk0 500) 0 0 hnf rfl
  exact ⟨hnf, rfl, h.2.2.1, h.2.1⟩

end HeatTransfer
